import Mathlib

set_option maxHeartbeats 1000000

/-!
Verification of the timemachine-exclude core (src/src/tmexclude.ts).

JS strings are modelled as lists of characters; a filesystem path built by
path.join is modelled as the list of its segments; the filesystem itself is
modelled as a tree of entries, each directory carrying a flag saying whether
fs.readdirSync would succeed on it; the external tmutil command and the
fs.existsSync checks made during apply are modelled as Boolean oracles.
-/

/-- A JS string, modelled as its list of characters. -/
abbrev Seg := List Char

/-- A filesystem path as built by path.join, modelled as its list of segments. -/
abbrev FsPath := List Seg

/-- line.startsWith('#') on a modelled line (src/src/tmexclude.ts:218 and 244). -/
def startsWithHash : List Char → Bool
  | [] => false
  | c :: _ => c = '#'

/-- content.split('\n') (src/src/tmexclude.ts:216 and 242): splits at every
newline and keeps empty pieces, so an empty string yields one empty line and a
trailing newline yields a final empty line. -/
def splitLines : List Char → List (List Char)
  | [] => [[]]
  | c :: cs =>
    if c = '\n' then [] :: splitLines cs
    else
      match splitLines cs with
      | [] => [[c]]
      | l :: ls => (c :: l) :: ls

/-- Elements of the regular expressions produced at src/src/tmexclude.ts:169:
a literal character, the regex metacharacter '.', and the '.*' that each '*'
of the pattern is replaced with. -/
inductive RElem where
  | lit (c : Char)
  | anyChar
  | dotStar
deriving DecidableEq

/-- pattern.replace(/\*/g, '.*') read back as a regular expression
(src/src/tmexclude.ts:169): '*' becomes '.*', a '.' of the pattern keeps its
regex meaning of "any one character", every other character is literal. -/
def translatePattern : Seg → List RElem
  | [] => []
  | c :: cs =>
    (if c = '*' then RElem.dotStar else if c = '.' then RElem.anyChar else RElem.lit c)
      :: translatePattern cs

/-- All suffixes of a list, longest first. -/
def tails : List Char → List (List Char)
  | [] => [[]]
  | c :: cs => (c :: cs) :: tails cs

/-- The JS line terminators, the characters the '.' of a RegExp built without
the s flag never matches: LF, CR, LS, PS. -/
def lineTerminator (c : Char) : Bool :=
  c = '\n' || c = '\r' || c = '\u2028' || c = '\u2029'

/-- The suffixes of a list reachable by consuming zero or more
non-line-terminator characters, longest first: what the '.*' of such a RegExp
can leave over. -/
def nonTermTails : List Char → List (List Char)
  | [] => [[]]
  | c :: cs => (c :: cs) :: (if lineTerminator c then [] else nonTermTails cs)

/-- Anchored acceptance of the translated expression, as
RegExp('^' + ... + '$').test does at src/src/tmexclude.ts:169: the whole name
must be consumed, and — the RegExp carrying no s flag — neither the '.' of
the pattern nor the '.*' a '*' turns into ever matches a line terminator. -/
def regexAccepts : List RElem → List Char → Bool
  | [], xs => xs.isEmpty
  | RElem.lit c :: rs, xs =>
    match xs with
    | [] => false
    | x :: xs2 => c = x && regexAccepts rs xs2
  | RElem.anyChar :: rs, xs =>
    match xs with
    | [] => false
    | x :: xs2 => !lineTerminator x && regexAccepts rs xs2
  | RElem.dotStar :: rs, xs => (nonTermTails xs).any fun s => regexAccepts rs s

/-- pattern.includes('*') (src/src/tmexclude.ts:168). -/
def patternHasStar (p : Seg) : Bool := p.contains '*'

/-- The per-pattern test of src/src/tmexclude.ts:167-172: a pattern containing
'*' goes through the regex translation, any other pattern is compared to the
entry name by string equality. -/
def matchesPattern (pattern name : Seg) : Bool :=
  if patternHasStar pattern then regexAccepts (translatePattern pattern) name
  else name == pattern

/-- patterns.some(...) at src/src/tmexclude.ts:167: a name matches the pattern
set when it matches at least one pattern. -/
def matchesAny (patterns : List Seg) (name : Seg) : Bool :=
  patterns.any fun p => matchesPattern p name

/-- The JS regular-expression metacharacters. The embedding of the translated
regex is exact for patterns whose characters stay outside this set apart from
the explicitly handled '*' and '.'. -/
def regexMeta : List Char := ("\\^$.|?*+()[]\x7b\x7d").toList

/-- The wildcard semantics in the words of the spec: each '*' matches any
sequence of zero or more characters, every other character matches only
itself, and the whole name must be covered (anchored at both ends). -/
def specGlobMatch : Seg → List Char → Bool
  | [], xs => xs.isEmpty
  | p :: ps, xs =>
    if p = '*' then (tails xs).any fun s => specGlobMatch ps s
    else
      match xs with
      | [] => false
      | x :: xs2 => p = x && specGlobMatch ps xs2

/-- A node of a scanned directory tree: a plain file, or a directory carrying
its name, a flag saying whether fs.readdirSync succeeds on it, and its
children. -/
inductive FSEntry where
  | file (name : Seg)
  | dir (name : Seg) (readable : Bool) (children : List FSEntry)

/-- entry.name of a readdirSync entry. -/
def entryName : FSEntry → Seg
  | .file n => n
  | .dir n _ _ => n

/-- Outcome of findExcludedDirs: the collected paths, and, in order, the paths
of the subdirectories whose enumeration failed and was only logged
(src/src/tmexclude.ts:177-179). -/
structure ScanOut where
  results : List FsPath
  diags : List FsPath
deriving DecidableEq

/-- findExcludedDirs (src/src/tmexclude.ts:160-184) with the entry loop
inlined: dirP is the path of the directory whose entry list is walked.  A
matching directory is recorded and not entered; a non-matching one is
entered when readable, and when unreadable the failure is logged as a
diagnostic and the subtree skipped. -/
def scanList (patterns : List Seg) : FsPath → List FSEntry → ScanOut
  | _, [] => ⟨[], []⟩
  | dirP, FSEntry.file _ :: es => scanList patterns dirP es
  | dirP, FSEntry.dir name r cs :: es =>
    if matchesAny patterns name then
      let rest := scanList patterns dirP es
      ⟨(dirP ++ [name]) :: rest.results, rest.diags⟩
    else if r then
      let sub := scanList patterns (dirP ++ [name]) cs
      let rest := scanList patterns dirP es
      ⟨sub.results ++ rest.results, sub.diags ++ rest.diags⟩
    else
      let rest := scanList patterns dirP es
      ⟨rest.results, (dirP ++ [name]) :: rest.diags⟩

/-- The base name of a path: its last segment. -/
def baseName : FsPath → Seg
  | [] => []
  | [s] => s
  | _ :: rest => baseName rest

/-- A real filesystem directory never lists the same name twice. -/
def namesDistinct : List Seg → Bool
  | [] => true
  | n :: ns => !(ns.contains n) && namesDistinct ns

/-- Name distinctness inside every directory of the forest. -/
def wfSub : List FSEntry → Bool
  | [] => true
  | FSEntry.file _ :: es => wfSub es
  | FSEntry.dir _ _ cs :: es => (namesDistinct (cs.map entryName) && wfSub cs) && wfSub es

/-- A well-formed forest: distinct names at the top level and inside every
directory below. -/
def wfForest (es : List FSEntry) : Bool :=
  namesDistinct (es.map entryName) && wfSub es

/-- q lies strictly below p: q extends p by at least one extra path segment. -/
def properBelow (q p : FsPath) : Prop := ∃ s : FsPath, s ≠ [] ∧ q = p ++ s

/-- The skip test of the apply loop (src/src/tmexclude.ts:218): a line is
skipped when it is empty or starts with the comment marker. -/
def applyLineSkipped (l : List Char) : Bool := l.isEmpty || startsWithHash l

/-- The skip test of the list loop (src/src/tmexclude.ts:244), textually the
same condition as the one of the apply loop. -/
def listLineSkipped (l : List Char) : Bool := l.isEmpty || startsWithHash l

/-- What happened to one entry during apply: the external command was run on
its path and returned ok or not, or the path was missing and the entry was
skipped. -/
inductive ApplyEvent where
  | invoked (p : List Char) (ok : Bool)
  | skippedMissing (p : List Char)
deriving DecidableEq

/-- The trace of an apply run: the per-entry events that happened before the
run ended, and whether it ended by the uncaught exception of a failed
external command. -/
structure ApplyResult where
  events : List ApplyEvent
  aborted : Bool
deriving DecidableEq

/-- The loop of applyExclusions (src/src/tmexclude.ts:217-226) over the split
lines, given fs.existsSync and the external command as oracles.  execSync
throws on a non-zero exit and no handler catches it, so a failed command ends
the loop with the remaining lines unprocessed. -/
def applyTrace (ex cmd : List Char → Bool) : List (List Char) → ApplyResult
  | [] => ⟨[], false⟩
  | l :: ls =>
    if applyLineSkipped l then applyTrace ex cmd ls
    else if ex l then
      if cmd l then
        let r := applyTrace ex cmd ls
        ⟨ApplyEvent.invoked l true :: r.events, r.aborted⟩
      else ⟨[ApplyEvent.invoked l false], true⟩
    else
      let r := applyTrace ex cmd ls
      ⟨ApplyEvent.skippedMissing l :: r.events, r.aborted⟩

/-- The path an event is about. -/
def eventPath : ApplyEvent → List Char
  | .invoked p _ => p
  | .skippedMissing p => p

/-- The loop of listExclusions (src/src/tmexclude.ts:243-246): the lines it
prints, in order. -/
def listLines : List (List Char) → List (List Char)
  | [] => []
  | l :: ls => if listLineSkipped l then listLines ls else l :: listLines ls

/-- applyExclusions after reading and splitting the exclusion file
(src/src/tmexclude.ts:216). -/
def applyRun (ex cmd : List Char → Bool) (content : List Char) : ApplyResult :=
  applyTrace ex cmd (splitLines content)

/-- listExclusions after reading and splitting the exclusion file
(src/src/tmexclude.ts:242): the printed entries, which is also how the file is
read back as a sequence of entries. -/
def listRun (content : List Char) : List (List Char) := listLines (splitLines content)

/-- The fixed text of the header line before the timestamp
(src/src/tmexclude.ts:190). -/
def headerText : List Char :=
  ("# Time Machine Exclusions - Generated by timemachine-exclude on ").toList

/-- The header written first by populateExclusions (src/src/tmexclude.ts:190):
the header line with the generation timestamp, then the blank separator
line. -/
def headerChars (ts : List Char) : List Char := headerText ++ ts ++ '\n' :: ['\n']

/-- The exclusion-file content that holds a given entry sequence: header
line, blank line, then one path per line (src/src/tmexclude.ts:190-200). -/
def writeContent (ts : List Char) (entries : List (List Char)) : List Char :=
  headerChars ts ++ (entries.map fun e => e ++ ['\n']).flatten

/-- fs.writeFileSync truncates: the resulting content is the new text alone,
whatever was in the file before (src/src/tmexclude.ts:191). -/
def fsWrite (_prior text : List Char) : List Char := text

/-- fs.appendFileSync adds to the current content (src/src/tmexclude.ts:198). -/
def fsAppend (cur extra : List Char) : List Char := cur ++ extra

/-- One configured root at populate time: its path, and none when
fs.existsSync fails, otherwise its readable entry list. -/
structure RootSpec where
  path : FsPath
  entries : Option (List FSEntry)

/-- Path segments rendered back to the string that path.join produced. -/
def renderPath : FsPath → List Char
  | [] => []
  | [s] => s
  | s :: rest => s ++ '/' :: renderPath rest

/-- One iteration of the root loop of populateExclusions
(src/src/tmexclude.ts:193-204): a missing root is skipped, an existing root
is scanned and each discovered directory appended as one line. -/
def appendEntriesFor (patterns : List Seg) (c : List Char) (r : RootSpec) : List Char :=
  match r.entries with
  | none => c
  | some es =>
    (scanList patterns r.path es).results.foldl
      (fun acc p => fsAppend acc (renderPath p ++ ['\n'])) c

/-- populateExclusions (src/src/tmexclude.ts:186-207) as a function from the
prior file content to the new one: writeFileSync the header, then append one
line per discovered directory, roots in configured order. -/
def populateContent (prior ts : List Char) (roots : List RootSpec)
    (patterns : List Seg) : List Char :=
  roots.foldl (appendEntriesFor patterns) (fsWrite prior (headerChars ts))

/-- The entry lines one populate run discovers, roots in configured order. -/
def populatePaths (roots : List RootSpec) (patterns : List Seg) : List (List Char) :=
  (roots.map fun r =>
    match r.entries with
    | none => []
    | some es => (scanList patterns r.path es).results.map renderPath).flatten

theorem list_any_congr_mem {α : Type} (f g : α → Bool) :
    ∀ l : List α, (∀ x ∈ l, f x = g x) → l.any f = l.any g
  | [], _ => rfl
  | x :: xs, h => by
    simp only [List.any_cons, h x (List.mem_cons_self x xs),
      list_any_congr_mem f g xs (fun y hy => h y (List.mem_cons_of_mem x hy))]

theorem tails_all (P : Char → Bool) :
    ∀ (n s : List Char), s ∈ tails n → n.all P = true → s.all P = true
  | [], s, hs, _ => by
    simp [tails] at hs
    subst hs
    rfl
  | c :: cs, s, hs, h => by
    simp only [tails, List.mem_cons] at hs
    rcases hs with h1 | h1
    · subst h1
      exact h
    · refine tails_all P cs s h1 ?_
      rw [List.all_cons, Bool.and_eq_true] at h
      exact h.2

theorem nonTermTails_eq_tails :
    ∀ n : List Char, (n.all fun c => !lineTerminator c) = true →
      nonTermTails n = tails n
  | [], _ => rfl
  | c :: cs, h => by
    rw [List.all_cons, Bool.and_eq_true] at h
    have hc : lineTerminator c = false := by
      have h1 := h.1
      simp at h1
      exact h1
    simp [nonTermTails, tails, hc, nonTermTails_eq_tails cs h.2]

/-- On patterns whose characters are '*' or plain (outside the regex
metacharacter set), and names free of line terminators, the translated regex
accepts exactly the names covered by the spec's wildcard expansion. -/
theorem regex_glob_agree : ∀ (p : Seg),
    (p.all fun c => c = '*' || !(regexMeta.contains c)) = true →
    ∀ n : List Char, (n.all fun c => !lineTerminator c) = true →
    regexAccepts (translatePattern p) n = specGlobMatch p n := by
  intro p
  induction p with
  | nil => intro _ n _; rfl
  | cons c cs ih =>
    intro h n hn
    rw [List.all_cons, Bool.and_eq_true] at h
    obtain ⟨hc, hcs⟩ := h
    by_cases hstar : c = '*'
    · subst hstar
      simp only [translatePattern, if_pos rfl, regexAccepts, specGlobMatch, if_pos rfl]
      rw [nonTermTails_eq_tails n hn]
      exact list_any_congr_mem _ _ (tails n) fun s hs => ih hcs s (tails_all _ n s hs hn)
    · have hdot : ¬ c = '.' := by
        intro hd
        subst hd
        have h2 : regexMeta.contains '.' = true := by decide
        rw [h2] at hc
        simp at hc
      simp only [translatePattern, if_neg hstar, if_neg hdot]
      cases n with
      | nil => simp [regexAccepts, specGlobMatch, if_neg hstar]
      | cons x xs =>
        have hxs : (xs.all fun c => !lineTerminator c) = true := by
          rw [List.all_cons, Bool.and_eq_true] at hn
          exact hn.2
        simp [regexAccepts, specGlobMatch, if_neg hstar, ih hcs xs hxs]

/-- The branch of src/src/tmexclude.ts:167-172 for patterns without '*': the
test is string equality. -/
theorem literal_branch (p n : Seg) (h : patternHasStar p = false) :
    matchesPattern p n = true ↔ n = p := by
  rw [matchesPattern, h]
  simp

/-- Claim C6: for every pattern containing no wildcard glyph, the pattern
matches a directory base name if and only if the pattern equals the name as a
string, case-sensitively; in particular the literal pattern dist matches the
name dist but neither Dist nor distribution. -/
theorem literal_pattern_exact_equality :
    (∀ p n : Seg, patternHasStar p = false → (matchesPattern p n = true ↔ n = p))
    ∧ matchesPattern (("dist").toList) (("dist").toList) = true
    ∧ matchesPattern (("dist").toList) (("Dist").toList) = false
    ∧ matchesPattern (("dist").toList) (("distribution").toList) = false :=
  ⟨fun p n h => literal_branch p n h, by decide, by decide, by decide⟩

theorem literal_pattern_exact_equality_witness :
    patternHasStar (("dist").toList) = false
    ∧ (matchesPattern (("dist").toList) (("Dist").toList) = true
        ↔ ("Dist").toList = ("dist").toList) :=
  ⟨by decide, literal_pattern_exact_equality.1 (("dist").toList) (("Dist").toList) (by decide)⟩

/-- Claim C9: for a pattern containing no '*', matching is plain string
equality even when the pattern holds regex metacharacters, because the regex
translation is only applied to patterns containing '*'; the pattern a.b
matches the name a.b and does not match aXb. -/
theorem nonwildcard_metachar_still_literal :
    (∀ p n : Seg, patternHasStar p = false → (matchesPattern p n = true ↔ n = p))
    ∧ matchesPattern (("a.b").toList) (("a.b").toList) = true
    ∧ matchesPattern (("a.b").toList) (("aXb").toList) = false :=
  ⟨fun p n h => literal_branch p n h, by decide, by decide⟩

theorem nonwildcard_metachar_still_literal_witness :
    patternHasStar (("a.b").toList) = false
    ∧ (matchesPattern (("a.b").toList) (("aXb").toList) = true
        ↔ ("aXb").toList = ("a.b").toList) :=
  ⟨by decide, nonwildcard_metachar_still_literal.1 (("a.b").toList) (("aXb").toList) (by decide)⟩

/-- Claim C5 counterexample: the wildcard pattern *.cache accepts the name
fooXcache although the wildcard expansion of the pattern does not cover that
name, because the '.' of the pattern is passed through to the regex and there
matches any character; so a wildcard pattern can match names beyond its
wildcard expansion, contrary to the claim. -/
theorem wildcard_exceeds_expansion_concrete :
    patternHasStar (("*.cache").toList) = true
    ∧ matchesPattern (("*.cache").toList) (("fooXcache").toList) = true
    ∧ specGlobMatch (("*.cache").toList) (("fooXcache").toList) = false := by
  refine ⟨by decide, by decide, by decide⟩

/-- Claim C5 (amended): matching of a wildcard pattern is anchored at both
ends, and for every wildcard pattern whose other characters are no regex
metacharacters and every name free of line terminators, the pattern matches
exactly the names covered by the wildcard expansion.  Anchoring holds for
*.cache: it matches foo.cache, not foo.cache.bak.  A '.' or other
metacharacter in the pattern keeps its regex meaning, so such a pattern can
also match names the expansion does not cover; and, the RegExp carrying no s
flag, its '.*' never crosses a line terminator, so a name containing one can
fail to match although the expansion covers it: *a does not match the name
b-newline-a. -/
theorem wildcard_match_anchored_expansion :
    (∀ p n : Seg, patternHasStar p = true →
      (p.all fun c => c = '*' || !(regexMeta.contains c)) = true →
      (n.all fun c => !lineTerminator c) = true →
      matchesPattern p n = specGlobMatch p n)
    ∧ matchesPattern (("*.cache").toList) (("foo.cache").toList) = true
    ∧ matchesPattern (("*.cache").toList) (("foo.cache.bak").toList) = false
    ∧ matchesPattern (("*a").toList) (("b\na").toList) = false
    ∧ specGlobMatch (("*a").toList) (("b\na").toList) = true := by
  refine ⟨?_, by decide, by decide, by decide, by decide⟩
  intro p n hs hp hn
  rw [matchesPattern, hs]
  exact regex_glob_agree p hp n hn

theorem wildcard_match_anchored_expansion_witness :
    patternHasStar (("*a").toList) = true
    ∧ ((("*a").toList.all fun c => c = '*' || !(regexMeta.contains c)) = true)
    ∧ ((("ba").toList.all fun c => !lineTerminator c) = true)
    ∧ matchesPattern (("*a").toList) (("ba").toList)
        = specGlobMatch (("*a").toList) (("ba").toList) :=
  ⟨by decide, by decide, by decide,
    wildcard_match_anchored_expansion.1 (("*a").toList) (("ba").toList)
      (by decide) (by decide) (by decide)⟩

theorem baseName_cons (x : Seg) (l : FsPath) (h : l ≠ []) : baseName (x :: l) = baseName l := by
  cases l with
  | nil => exact absurd rfl h
  | cons y l2 => rfl

theorem baseName_append (a b : FsPath) (h : b ≠ []) : baseName (a ++ b) = baseName b := by
  induction a with
  | nil => rfl
  | cons x a2 ih =>
    rw [List.cons_append, baseName_cons x (a2 ++ b) ?_, ih]
    intro hh
    exact h (List.append_eq_nil.mp hh).2

theorem namesDistinct_cons {n : Seg} {ns : List Seg} (h : namesDistinct (n :: ns) = true) :
    n ∉ ns ∧ namesDistinct ns = true := by
  rw [namesDistinct, Bool.and_eq_true, Bool.not_eq_true'] at h
  refine ⟨?_, h.2⟩
  have h1 := h.1
  simp at h1
  exact h1

theorem not_properBelow_self (x : FsPath) : ¬ properBelow x x := by
  rintro ⟨s, hs, he⟩
  have hl := congrArg List.length he
  rw [List.length_append] at hl
  have h0 : s.length = 0 := by omega
  exact hs (List.eq_nil_of_length_eq_zero h0)

theorem properBelow_head_eq {dirP : FsPath} {a b : Seg} {t1 t2 : FsPath}
    (h : properBelow (dirP ++ b :: t2) (dirP ++ a :: t1)) : b = a := by
  rcases h with ⟨s, _, he⟩
  rw [List.append_assoc] at he
  have h2 := List.append_cancel_left he
  exact (List.cons_eq_cons.mp h2).1

/-- Walking a concatenation of entry lists concatenates results and
diagnostics: each entry of the loop contributes independently. -/
theorem scanList_append (patterns : List Seg) (dirP : FsPath) (as bs : List FSEntry) :
    scanList patterns dirP (as ++ bs) =
      ⟨(scanList patterns dirP as).results ++ (scanList patterns dirP bs).results,
       (scanList patterns dirP as).diags ++ (scanList patterns dirP bs).diags⟩ := by
  induction as with
  | nil => simp [scanList]
  | cons e as ih =>
    cases e with
    | file m => simpa [scanList] using ih
    | dir name r cs =>
      by_cases hm : matchesAny patterns name = true
      · simp [scanList, hm, ih]
      · by_cases hr : r = true
        · simp [scanList, hm, hr, ih]
        · simp [scanList, hm, hr, ih]

/-- Every recorded path extends the walked directory by the name of one of its
entries, and its base name matches the pattern set. -/
theorem scanList_shape (patterns : List Seg) :
    ∀ (dirP : FsPath) (es : List FSEntry) (p : FsPath),
      p ∈ (scanList patterns dirP es).results →
      ∃ n t, n ∈ es.map entryName ∧ p = dirP ++ n :: t
        ∧ matchesAny patterns (baseName p) = true
  | dirP, [], p, hp => by simp [scanList] at hp
  | dirP, FSEntry.file m :: es, p, hp => by
    simp only [scanList] at hp
    obtain ⟨n, t, hn, hpe, hb⟩ := scanList_shape patterns dirP es p hp
    exact ⟨n, t, by simp [entryName]; right; simpa using hn, hpe, hb⟩
  | dirP, FSEntry.dir name r cs :: es, p, hp => by
    simp only [scanList] at hp
    by_cases hm : matchesAny patterns name = true
    · rw [if_pos hm] at hp
      rcases List.mem_cons.mp hp with h1 | h1
      · subst h1
        refine ⟨name, [], by simp [entryName], rfl, ?_⟩
        rw [baseName_append dirP [name] (by simp)]
        simpa [baseName] using hm
      · obtain ⟨n, t, hn, hpe, hb⟩ := scanList_shape patterns dirP es p h1
        exact ⟨n, t, by simp [entryName]; right; simpa using hn, hpe, hb⟩
    · rw [if_neg hm] at hp
      by_cases hr : r = true
      · rw [if_pos hr] at hp
        rcases List.mem_append.mp hp with h1 | h1
        · obtain ⟨m, t, _, hpe, hb⟩ := scanList_shape patterns (dirP ++ [name]) cs p h1
          refine ⟨name, m :: t, by simp [entryName], ?_, hb⟩
          rw [hpe, List.append_assoc]
          rfl
        · obtain ⟨n, t, hn, hpe, hb⟩ := scanList_shape patterns dirP es p h1
          exact ⟨n, t, by simp [entryName]; right; simpa using hn, hpe, hb⟩
      · rw [if_neg hr] at hp
        obtain ⟨n, t, hn, hpe, hb⟩ := scanList_shape patterns dirP es p hp
        exact ⟨n, t, by simp [entryName]; right; simpa using hn, hpe, hb⟩
termination_by dirP es p _ => sizeOf es

/-- In a well-formed forest no recorded path lies strictly below another
recorded path: a matching directory is recorded and never entered. -/
theorem scanList_no_nest (patterns : List Seg) :
    ∀ (dirP : FsPath) (es : List FSEntry),
      namesDistinct (es.map entryName) = true → wfSub es = true →
      ∀ p q : FsPath, p ∈ (scanList patterns dirP es).results →
        q ∈ (scanList patterns dirP es).results → ¬ properBelow q p
  | dirP, [], _, _, p, q, hp, _ => by simp [scanList] at hp
  | dirP, FSEntry.file m :: es, hd, hs, p, q, hp, hq => by
    simp only [scanList] at hp hq
    simp only [List.map_cons, entryName] at hd
    exact scanList_no_nest patterns dirP es (namesDistinct_cons hd).2
      (by simpa [wfSub] using hs) p q hp hq
  | dirP, FSEntry.dir name r cs :: es, hd, hs, p, q, hp, hq => by
    simp only [List.map_cons, entryName] at hd
    have hdn := namesDistinct_cons hd
    simp only [wfSub, Bool.and_eq_true] at hs
    by_cases hm : matchesAny patterns name = true
    · simp only [scanList, if_pos hm, List.mem_cons] at hp hq
      rcases hp with h1 | h1 <;> rcases hq with h2 | h2
      · subst h1
        subst h2
        exact not_properBelow_self _
      · subst h1
        intro hb
        obtain ⟨m2, t2, hm2, hqe, _⟩ := scanList_shape patterns dirP es q h2
        rw [hqe] at hb
        have heq : m2 = name := properBelow_head_eq hb
        exact hdn.1 (heq ▸ hm2)
      · subst h2
        intro hb
        obtain ⟨m1, t1, hm1, hpe, _⟩ := scanList_shape patterns dirP es p h1
        rw [hpe] at hb
        have heq : name = m1 := properBelow_head_eq hb
        exact hdn.1 (heq ▸ hm1)
      · exact scanList_no_nest patterns dirP es hdn.2 hs.2 p q h1 h2
    · by_cases hr : r = true
      · simp only [scanList, if_neg hm, if_pos hr, List.mem_append] at hp hq
        rcases hp with h1 | h1 <;> rcases hq with h2 | h2
        · exact scanList_no_nest patterns (dirP ++ [name]) cs hs.1.1 hs.1.2 p q h1 h2
        · intro hb
          obtain ⟨m1, t1, _, hpe, _⟩ := scanList_shape patterns (dirP ++ [name]) cs p h1
          obtain ⟨m2, t2, hm2, hqe, _⟩ := scanList_shape patterns dirP es q h2
          rw [hpe, hqe, List.append_assoc, List.singleton_append] at hb
          have heq : m2 = name := properBelow_head_eq hb
          exact hdn.1 (heq ▸ hm2)
        · intro hb
          obtain ⟨m1, t1, hm1, hpe, _⟩ := scanList_shape patterns dirP es p h1
          obtain ⟨m2, t2, _, hqe, _⟩ := scanList_shape patterns (dirP ++ [name]) cs q h2
          rw [hpe, hqe, List.append_assoc, List.singleton_append] at hb
          have heq : name = m1 := properBelow_head_eq hb
          exact hdn.1 (heq ▸ hm1)
        · exact scanList_no_nest patterns dirP es hdn.2 hs.2 p q h1 h2
      · simp only [scanList, if_neg hm, if_neg hr] at hp hq
        exact scanList_no_nest patterns dirP es hdn.2 hs.2 p q hp hq
termination_by dirP es _ _ p q _ _ => sizeOf es

/-- Claim C2: for every directory tree and pattern set, every path recorded by
the scan has a base name matching at least one pattern, and no recorded path
lies strictly below another recorded path, because a matching directory is
recorded and never recursed into. -/
theorem scan_pruning_invariant (patterns : List Seg) (dirP : FsPath) (es : List FSEntry)
    (p q : FsPath) (hwf : wfForest es = true)
    (hp : p ∈ (scanList patterns dirP es).results)
    (hq : q ∈ (scanList patterns dirP es).results) :
    matchesAny patterns (baseName p) = true ∧ ¬ properBelow q p := by
  rw [wfForest, Bool.and_eq_true] at hwf
  obtain ⟨_, _, _, _, hb⟩ := scanList_shape patterns dirP es p hp
  exact ⟨hb, scanList_no_nest patterns dirP es hwf.1 hwf.2 p q hp hq⟩

theorem scan_pruning_invariant_witness :
    wfForest [FSEntry.dir (("nm").toList) true [],
        FSEntry.dir (("src").toList) true [FSEntry.dir (("nm").toList) true []]] = true
    ∧ [("r").toList, ("nm").toList] ∈
        (scanList [("nm").toList] [("r").toList]
          [FSEntry.dir (("nm").toList) true [],
           FSEntry.dir (("src").toList) true [FSEntry.dir (("nm").toList) true []]]).results
    ∧ [("r").toList, ("src").toList, ("nm").toList] ∈
        (scanList [("nm").toList] [("r").toList]
          [FSEntry.dir (("nm").toList) true [],
           FSEntry.dir (("src").toList) true [FSEntry.dir (("nm").toList) true []]]).results
    ∧ (matchesAny [("nm").toList] (baseName [("r").toList, ("nm").toList]) = true
        ∧ ¬ properBelow [("r").toList, ("src").toList, ("nm").toList]
            [("r").toList, ("nm").toList]) := by
  have h1 : wfForest [FSEntry.dir (("nm").toList) true [],
      FSEntry.dir (("src").toList) true [FSEntry.dir (("nm").toList) true []]] = true := by
    simp [wfForest, wfSub, namesDistinct, entryName]
  have h2 : [("r").toList, ("nm").toList] ∈
      (scanList [("nm").toList] [("r").toList]
        [FSEntry.dir (("nm").toList) true [],
         FSEntry.dir (("src").toList) true [FSEntry.dir (("nm").toList) true []]]).results := by
    simp [scanList, matchesAny, matchesPattern, patternHasStar]
  have h3 : [("r").toList, ("src").toList, ("nm").toList] ∈
      (scanList [("nm").toList] [("r").toList]
        [FSEntry.dir (("nm").toList) true [],
         FSEntry.dir (("src").toList) true [FSEntry.dir (("nm").toList) true []]]).results := by
    simp [scanList, matchesAny, matchesPattern, patternHasStar]
  exact ⟨h1, h2, h3, scan_pruning_invariant _ _ _ _ _ h1 h2 h3⟩

/-- Claim C3: a non-matching directory that cannot be enumerated, at any
position among the entries of any directory of the scan, contributes no
results and one diagnostic naming its path, whatever its subtree holds, while
the entries before and after it are processed normally — the scan returns
instead of aborting. -/
theorem scan_unreadable_subtree_skipped (patterns : List Seg) (dirP : FsPath)
    (name : Seg) (cs : List FSEntry) (pre post : List FSEntry)
    (hm : matchesAny patterns name = false) :
    scanList patterns dirP (pre ++ FSEntry.dir name false cs :: post) =
      ⟨(scanList patterns dirP pre).results ++ (scanList patterns dirP post).results,
       (scanList patterns dirP pre).diags
         ++ (dirP ++ [name]) :: (scanList patterns dirP post).diags⟩ := by
  rw [scanList_append]
  have h1 : scanList patterns dirP (FSEntry.dir name false cs :: post) =
      ⟨(scanList patterns dirP post).results,
       (dirP ++ [name]) :: (scanList patterns dirP post).diags⟩ := by
    simp [scanList, hm]
  rw [h1]

theorem scan_unreadable_subtree_skipped_witness :
    matchesAny [("nm").toList] (("boom").toList) = false
    ∧ scanList [("nm").toList] [("r").toList]
        ([FSEntry.dir (("nm").toList) true []]
          ++ FSEntry.dir (("boom").toList) false [FSEntry.dir (("nm").toList) true []]
          :: [FSEntry.dir (("nm").toList) true []]) =
      ⟨(scanList [("nm").toList] [("r").toList] [FSEntry.dir (("nm").toList) true []]).results
        ++ (scanList [("nm").toList] [("r").toList] [FSEntry.dir (("nm").toList) true []]).results,
       (scanList [("nm").toList] [("r").toList] [FSEntry.dir (("nm").toList) true []]).diags
        ++ ([("r").toList] ++ [("boom").toList])
          :: (scanList [("nm").toList] [("r").toList] [FSEntry.dir (("nm").toList) true []]).diags⟩ :=
  ⟨by decide,
    scan_unreadable_subtree_skipped [("nm").toList] [("r").toList] (("boom").toList)
      [FSEntry.dir (("nm").toList) true []]
      [FSEntry.dir (("nm").toList) true []] [FSEntry.dir (("nm").toList) true []] (by decide)⟩


/-- Claim C1 counterexample: two entries, every path exists, and the external
command fails on every path; the apply loop records only the failed first
entry and ends aborted — the second entry is never processed, so a command
failure is not contained to its entry and does abort the batch. -/
theorem apply_cmd_failure_aborts_concrete :
    (applyTrace (fun _ => true) (fun _ => false) [[('a')], [('b')]]).aborted = true
    ∧ (applyTrace (fun _ => true) (fun _ => false) [[('a')], [('b')]]).events.map eventPath
        = [[('a')]] := by
  refine ⟨by decide, by decide⟩

/-- Claim C1 (amended): when the external exclusion command exits non-zero
for an entry that exists, the exception of the synchronous invocation
propagates out of the loop: the run ends at that entry with aborted status
and none of the remaining entries is processed.  Only the missing-path skip
is continue-on-error. -/
theorem apply_cmd_failure_aborts (ex cmd : List Char → Bool) (l : List Char)
    (ls : List (List Char)) (hk : applyLineSkipped l = false) (hex : ex l = true)
    (hcmd : cmd l = false) :
    applyTrace ex cmd (l :: ls) = ⟨[ApplyEvent.invoked l false], true⟩ := by
  simp [applyTrace, hk, hex, hcmd]

theorem apply_cmd_failure_aborts_witness :
    applyLineSkipped [('a')] = false
    ∧ applyTrace (fun _ => true) (fun _ => false) [[('a')], [('c')]]
        = ⟨[ApplyEvent.invoked [('a')] false], true⟩ :=
  ⟨by decide,
    apply_cmd_failure_aborts (fun _ => true) (fun _ => false) [('a')] [[('c')]]
      (by decide) rfl rfl⟩

/-- Claim C8: for an entry the loop does not skip as a comment or blank line,
if its path no longer exists the entry is recorded as skipped-missing, the
external command contributes nothing for it, and the loop continues with the
remaining entries; if the path exists, the external command is invoked with
exactly that path. -/
theorem apply_missing_path_skipped (ex cmd : List Char → Bool) (l : List Char)
    (ls : List (List Char)) (hk : applyLineSkipped l = false) :
    (ex l = false →
      applyTrace ex cmd (l :: ls) =
        ⟨ApplyEvent.skippedMissing l :: (applyTrace ex cmd ls).events,
         (applyTrace ex cmd ls).aborted⟩)
    ∧ (ex l = true →
      (applyTrace ex cmd (l :: ls)).events.head? = some (ApplyEvent.invoked l (cmd l))) := by
  constructor
  · intro hex
    simp [applyTrace, hk, hex]
  · intro hex
    cases hc : cmd l with
    | false => simp [applyTrace, hk, hex, hc]
    | true => simp [applyTrace, hk, hex, hc]

theorem apply_missing_path_skipped_witness :
    applyLineSkipped [('a')] = false
    ∧ applyTrace (fun l => decide (l ≠ [('a')])) (fun _ => true) [[('a')], [('b')]] =
        ⟨ApplyEvent.skippedMissing [('a')]
            :: (applyTrace (fun l => decide (l ≠ [('a')])) (fun _ => true) [[('b')]]).events,
         (applyTrace (fun l => decide (l ≠ [('a')])) (fun _ => true) [[('b')]]).aborted⟩
    ∧ (applyTrace (fun l => decide (l ≠ [('a')])) (fun _ => true) [[('b')]]).events.head?
        = some (ApplyEvent.invoked [('b')] true) := by
  refine ⟨by decide, ?_, ?_⟩
  · exact (apply_missing_path_skipped (fun l => decide (l ≠ [('a')])) (fun _ => true)
      [('a')] [[('b')]] (by decide)).1 (by decide)
  · have h2 := (apply_missing_path_skipped (fun l => decide (l ≠ [('a')])) (fun _ => true)
      [('b')] [] (by decide)).2 (by decide)
    simpa using h2

theorem applyTrace_all_ok (ex cmd : List Char → Bool) (hcmd : ∀ p, cmd p = true) :
    ∀ lines : List (List Char),
      (applyTrace ex cmd lines).events.map eventPath = listLines lines
  | [] => rfl
  | l :: ls => by
    have ih := applyTrace_all_ok ex cmd hcmd ls
    cases hk : applyLineSkipped l with
    | true =>
      have hk2 : listLineSkipped l = true := hk
      simp [applyTrace, listLines, hk, hk2, ih]
    | false =>
      have hk2 : listLineSkipped l = false := hk
      cases hex : ex l with
      | false => simp [applyTrace, listLines, hk, hk2, hex, eventPath, ih]
      | true => simp [applyTrace, listLines, hk, hk2, hex, hcmd l, eventPath, ih]

/-- Claim C10: the list command and the apply command select the entries of
the exclusion file with the identical line test — skip a line that is empty
or starts with the comment marker — so, as long as no command failure cuts
the run short, the entries apply processes are exactly the lines list prints,
in order, for every file content. -/
theorem list_apply_same_selection :
    (∀ l : List Char, applyLineSkipped l = listLineSkipped l)
    ∧ ∀ (ex cmd : List Char → Bool) (content : List Char), (∀ p, cmd p = true) →
        (applyRun ex cmd content).events.map eventPath = listRun content :=
  ⟨fun _ => rfl, fun ex cmd content hcmd => applyTrace_all_ok ex cmd hcmd (splitLines content)⟩

theorem list_apply_same_selection_witness :
    (∀ p : List Char, (fun _ : List Char => true) p = true)
    ∧ (applyRun (fun _ => true) (fun _ => true) (("# h\n\n/a\n/b\n").toList)).events.map eventPath
        = listRun (("# h\n\n/a\n/b\n").toList) :=
  ⟨fun _ => rfl,
    list_apply_same_selection.2 (fun _ => true) (fun _ => true)
      (("# h\n\n/a\n/b\n").toList) (fun _ => rfl)⟩

theorem splitLines_newline (rest : List Char) :
    splitLines ('\n' :: rest) = [] :: splitLines rest := by
  simp [splitLines]

theorem splitLines_line (l rest : List Char) (h : '\n' ∉ l) :
    splitLines (l ++ '\n' :: rest) = l :: splitLines rest := by
  induction l with
  | nil => simp [splitLines]
  | cons c cs ih =>
    have hc : ¬ c = '\n' := fun he => h (he ▸ List.mem_cons_self c cs)
    have h2 : '\n' ∉ cs := fun hm => h (List.mem_cons_of_mem c hm)
    rw [List.cons_append]
    simp only [splitLines, if_neg hc, ih h2]

theorem splitLines_entries (entries : List (List Char))
    (h : ∀ e ∈ entries, '\n' ∉ e) :
    splitLines ((entries.map fun e => e ++ ['\n']).flatten) = entries ++ [[]] := by
  induction entries with
  | nil => rfl
  | cons e es ih =>
    rw [List.map_cons, List.flatten_cons, List.append_assoc, List.singleton_append,
      splitLines_line e _ (h e (List.mem_cons_self e es)),
      ih (fun x hx => h x (List.mem_cons_of_mem e hx)), List.cons_append]

theorem listLineSkipped_false {e : List Char} (h1 : e ≠ []) (h2 : startsWithHash e = false) :
    listLineSkipped e = false := by
  cases e with
  | nil => exact absurd rfl h1
  | cons c cs =>
    rw [listLineSkipped, h2]
    rfl

theorem listLines_keepAll (es : List (List Char))
    (h : ∀ e ∈ es, listLineSkipped e = false) :
    listLines (es ++ [[]]) = es := by
  induction es with
  | nil => simp [listLines, listLineSkipped]
  | cons e es ih =>
    have h1 := h e (List.mem_cons_self e es)
    have h2 := ih (fun x hx => h x (List.mem_cons_of_mem e hx))
    simp [listLines, h1, h2]

/-- Claim C4: writing any non-empty sequence of valid paths to the exclusion
file and reading it back yields exactly that sequence, in order: the header
line and the blank separator are skipped on read and every other line is
taken verbatim. -/
theorem write_read_roundtrip (ts : List Char) (entries : List (List Char))
    (hts : '\n' ∉ ts) (_hne : entries ≠ [])
    (hv : ∀ e ∈ entries, e ≠ [] ∧ startsWithHash e = false ∧ '\n' ∉ e) :
    listRun (writeContent ts entries) = entries := by
  have hhl : '\n' ∉ headerText ++ ts := by
    intro hm
    rcases List.mem_append.mp hm with h1 | h1
    · exact absurd h1 (by decide)
    · exact hts h1
  have hcontent : writeContent ts entries
      = (headerText ++ ts) ++ '\n' :: ('\n' :: (entries.map fun e => e ++ ['\n']).flatten) := by
    simp [writeContent, headerChars]
  rw [listRun, hcontent, splitLines_line _ _ hhl, splitLines_newline,
    splitLines_entries entries (fun e he => (hv e he).2.2)]
  have hskip : listLineSkipped (headerText ++ ts) = true := by
    rw [listLineSkipped]
    have hh : startsWithHash (headerText ++ ts) = true := rfl
    rw [hh, Bool.or_true]
  simp only [listLines, hskip, if_pos rfl, listLineSkipped, startsWithHash, List.isEmpty_nil,
    Bool.true_or, if_true]
  exact listLines_keepAll entries (fun e he => listLineSkipped_false (hv e he).1 (hv e he).2.1)

theorem write_read_roundtrip_witness :
    '\n' ∉ ("T").toList
    ∧ ([("/a").toList, ("/b").toList] : List (List Char)) ≠ []
    ∧ (∀ e ∈ [("/a").toList, ("/b").toList], e ≠ [] ∧ startsWithHash e = false ∧ '\n' ∉ e)
    ∧ listRun (writeContent (("T").toList) [("/a").toList, ("/b").toList])
        = [("/a").toList, ("/b").toList] :=
  ⟨by decide, by decide, by decide,
    write_read_roundtrip (("T").toList) [("/a").toList, ("/b").toList]
      (by decide) (by decide) (by decide)⟩

theorem foldl_append_flatten {α : Type} (f : α → List Char) :
    ∀ (l : List α) (c : List Char),
      l.foldl (fun acc x => acc ++ f x) c = c ++ (l.map f).flatten
  | [], c => by simp
  | x :: xs, c => by
    rw [List.foldl_cons, foldl_append_flatten f xs (c ++ f x), List.map_cons,
      List.flatten_cons, List.append_assoc]

theorem appendEntriesFor_eq (patterns : List Seg) (c : List Char) (r : RootSpec) :
    appendEntriesFor patterns c r =
      c ++ (((match r.entries with
              | none => []
              | some es => (scanList patterns r.path es).results.map renderPath)
             : List (List Char)).map fun e => e ++ ['\n']).flatten := by
  cases r with
  | mk path entries =>
    cases entries with
    | none => simp [appendEntriesFor]
    | some es =>
      simp only [appendEntriesFor, fsAppend]
      rw [foldl_append_flatten (fun p => renderPath p ++ ['\n'])
        ((scanList patterns path es).results) c, List.map_map]
      rfl

theorem flatten_lines (roots : List RootSpec) (f : RootSpec → List (List Char)) :
    (roots.map fun r => ((f r).map fun e => e ++ ['\n']).flatten).flatten
      = ((roots.map f).flatten.map fun e => e ++ ['\n']).flatten := by
  induction roots with
  | nil => rfl
  | cons r rs ih => simp [List.map_cons, List.flatten_cons, List.map_append, ih]

/-- Claim C7: a populate run fully replaces the exclusion file — the result
does not depend on the prior contents — and the new content is exactly the
header line with the generation timestamp, one blank separator line, then one
discovered path per line, the per-root scan results concatenated in
configured root order. -/
theorem populate_replaces_file (prior prior2 ts : List Char) (roots : List RootSpec)
    (patterns : List Seg) :
    populateContent prior ts roots patterns = writeContent ts (populatePaths roots patterns)
    ∧ populateContent prior ts roots patterns = populateContent prior2 ts roots patterns := by
  have key : ∀ pr : List Char,
      populateContent pr ts roots patterns = writeContent ts (populatePaths roots patterns) := by
    intro pr
    rw [populateContent, writeContent, populatePaths, fsWrite]
    have hfun : appendEntriesFor patterns = fun c r =>
        c ++ (((match r.entries with
                | none => []
                | some es => (scanList patterns r.path es).results.map renderPath)
               : List (List Char)).map fun e => e ++ ['\n']).flatten :=
      funext fun c => funext fun r => appendEntriesFor_eq patterns c r
    rw [hfun, foldl_append_flatten
      (fun r : RootSpec =>
        (((match r.entries with
           | none => []
           | some es => (scanList patterns r.path es).results.map renderPath)
          : List (List Char)).map fun e => e ++ ['\n']).flatten) roots (headerChars ts)]
    rw [flatten_lines roots (fun r =>
      match r.entries with
      | none => []
      | some es => (scanList patterns r.path es).results.map renderPath)]
  exact ⟨key prior, (key prior).trans (key prior2).symm⟩
